import Mathlib

/-!
Verification of the replication engine in `src/btree/replicate.cc`.

The development shallowly embeds, directly from the source:
* the pure value-delivery semantics of `branch_walker_t` (tree scan,
  large-value segment assembly),
* the trigger-registry operations `btree_replicant_t::install` /
  `btree_replicant_t::uninstall`,
* a small-step model of the coordinator (`btree_replicant_t`) shutdown
  protocol (`stop` / `slice_walker_done` / `have_uninstalled` / `done`),
* a small-step model of a single shard traversal
  (`slice_walker_t` / `branch_walker_t`) with the shared
  `active_branch_walkers` counter and large-value back-pressure.
-/

namespace Replicate

/-- Byte sequences: contents of values and of large-value segments. -/
abbrev Bytes := List Nat

/-- `btree_value`: stored inline, or as a large value split into an ordered
sequence of segments (`large_buf_t` exposes `get_num_segments` and
`get_segment`). -/
inductive BtreeValue where
  | inline (bytes : Bytes)
  | large (segments : List Bytes)
deriving DecidableEq

/-- One `btree_leaf_pair`: key, value, and the metadata forwarded by
`branch_walker_t::deliver_value` (`mcflags()`, `exptime()`,
`has_cas() ? cas() : 0`). -/
structure LeafPair where
  key : String
  value : BtreeValue
  mcflags : Nat
  exptime : Nat
  cas : Option Nat
deriving DecidableEq

mutual
/-- A btree node, polymorphic over internal/leaf as in `node_handler`:
an internal node holds ordered (separator, child) pairs, a leaf holds
ordered key/value pairs. -/
inductive Node where
  | internal (pairs : InternalPairs)
  | leaf (pairs : List LeafPair)
/-- The ordered (separator key, child node) pairs of an internal node
(each `btree_internal_pair` carries a key and a child block `lnode`). -/
inductive InternalPairs where
  | inil
  | icons (sep : String) (child : Node) (rest : InternalPairs)
end

/-- The child nodes of an internal node, in pair order: the loop
`for i in 0..npairs: walk_branch(parent, pair->lnode)` visits exactly
these, in this order. -/
def childrenOf : InternalPairs → List Node
  | .inil => []
  | .icons _ c rest => c :: childrenOf rest

/-- The stored byte sequence of a value: the inline bytes, or the
concatenation of all segments of a large value. -/
def valueBytes : BtreeValue → Bytes
  | .inline b => b
  | .large segs => segs.flatten

/-- `branch_walker_t::on_large_buf_available`: the loop
`for i in 0..get_num_segments(): buffers.add_buffer(get_segment(i))`,
assembling the buffer group from the segments in segment order. -/
def assembleSegments (segs : List Bytes) : List Bytes :=
  (List.range segs.length).map (fun i => segs.getD i [])

/-- The buffer group built for a value before delivery: a single buffer
for an inline value (`buffers.add_buffer(value_size, value)` in
`have_copied_value`), or the assembled segments for a large value. -/
def buffersOf : BtreeValue → List Bytes
  | .inline b => [b]
  | .large segs => assembleSegments segs

/-- One sink delivery: the arguments of
`parent->parent->callback->value(current_key, &buffers, this, mcflags, exptime, cas)`. -/
structure Delivery where
  key : String
  buffers : List Bytes
  mcflags : Nat
  exptime : Nat
  cas : Nat
deriving DecidableEq

/-- The delivery `branch_walker_t` produces for one leaf pair. -/
def deliverPair (p : LeafPair) : Delivery :=
  { key := p.key
    buffers := buffersOf p.value
    mcflags := p.mcflags
    exptime := p.exptime
    cas := p.cas.getD 0 }

mutual
/-- Value-delivery semantics of `branch_walker_t::on_block_available`:
an internal node recursively walks every child in pair order, a leaf
delivers its pairs in order (`have_copied_value` iterating `current_pair`). -/
def walkBranch : Node → List Delivery
  | .internal ps => walkChildren ps
  | .leaf ps => ps.map deliverPair
/-- Deliveries of all children of an internal node, in pair order. -/
def walkChildren : InternalPairs → List Delivery
  | .inil => []
  | .icons _ c rest => walkBranch c ++ walkChildren rest
end

mutual
/-- The (key, stored value bytes) entries of a subtree, in key order. -/
def nodeEntries : Node → List (String × Bytes)
  | .internal ps => childEntries ps
  | .leaf ps => ps.map (fun p => (p.key, valueBytes p.value))
/-- Entries of all children of an internal node. -/
def childEntries : InternalPairs → List (String × Bytes)
  | .inil => []
  | .icons _ c rest => nodeEntries c ++ childEntries rest
end

/-- A full scan over a sharded store: each shard contributes the walk of its
root if it has one (`superblock->root_block != NULL_BLOCK_ID`), and nothing
otherwise.  Shard order stands in for an arbitrary interleaving; the
claims proved below are insensitive to it. -/
def fullScan (shards : List (Option Node)) : List Delivery :=
  shards.flatMap (fun o => match o with | some r => walkBranch r | none => [])

/-- The (key, stored value bytes) entries present in the snapshot of a
sharded store. -/
def storeEntries (shards : List (Option Node)) : List (String × Bytes) :=
  shards.flatMap (fun o => match o with | some r => nodeEntries r | none => [])

/-! ### Pure scan lemmas -/

theorem assembleSegments_eq (segs : List Bytes) : assembleSegments segs = segs := by
  unfold assembleSegments
  induction segs with
  | nil => rfl
  | cons a l ih =>
    rw [List.length_cons, List.range_succ_eq_map, List.map_cons, List.map_map]
    simp only [List.getD_cons_zero, List.getD_cons_succ, Function.comp]
    exact congrArg (a :: ·) ih

theorem buffersOf_join (v : BtreeValue) : (buffersOf v).flatten = valueBytes v := by
  cases v with
  | inline b => simp [buffersOf, valueBytes]
  | large segs => simp [buffersOf, valueBytes, assembleSegments_eq]

mutual
theorem walkBranch_entries (t : Node) :
    (walkBranch t).map (fun d => (d.key, d.buffers.flatten)) = nodeEntries t := by
  cases t with
  | internal ps => simpa [walkBranch, nodeEntries] using walkChildren_entries ps
  | leaf ps =>
    simp only [walkBranch, nodeEntries, List.map_map]
    exact List.map_congr_left (fun p _ => by
      simp [Function.comp, deliverPair, buffersOf_join])
theorem walkChildren_entries (ps : InternalPairs) :
    (walkChildren ps).map (fun d => (d.key, d.buffers.flatten)) = childEntries ps := by
  cases ps with
  | inil => rfl
  | icons s c rest =>
    simp only [walkChildren, childEntries, List.map_append]
    rw [walkBranch_entries c, walkChildren_entries rest]
end

theorem fullScan_entries (shards : List (Option Node)) :
    (fullScan shards).map (fun d => (d.key, d.buffers.flatten)) = storeEntries shards := by
  unfold fullScan storeEntries
  induction shards with
  | nil => rfl
  | cons o rest ih =>
    cases o with
    | none => simpa using ih
    | some r => simpa [walkBranch_entries r] using ih

/-- In a list of pairs with no duplicate first components, filtering for a
first component that is present yields exactly the one matching pair. -/
theorem filter_of_nodup_keys (L : List (String × Bytes)) (k : String) (v : Bytes)
    (hnd : (L.map Prod.fst).Nodup) (hmem : (k, v) ∈ L) :
    L.filter (fun p => p.1 == k) = [(k, v)] := by
  induction L with
  | nil => cases hmem
  | cons p rest ih =>
    simp only [List.map_cons, List.nodup_cons] at hnd
    rcases List.mem_cons.mp hmem with h | h
    · cases h
      have hrest : rest.filter (fun p => p.1 == k) = [] := by
        apply List.filter_eq_nil_iff.mpr
        intro q hq hbeq
        have hq1 : q.1 = k := by simpa using hbeq
        have hmm : q.1 ∈ rest.map Prod.fst := List.mem_map_of_mem Prod.fst hq
        rw [hq1] at hmm
        exact hnd.1 hmm
      simp [List.filter_cons, hrest]
    · have hkmem : k ∈ rest.map Prod.fst := by
        have := List.mem_map_of_mem Prod.fst h
        simpa using this
      have hne : (p.1 == k) = false :=
        beq_eq_false_iff_ne.mpr (fun he => hnd.1 (he ▸ hkmem))
      simp only [List.filter_cons, hne]
      exact ih hnd.2 h

theorem map_filter_comp (L : List Delivery) (k : String) :
    (L.filter (fun d => d.key == k)).map (fun d => (d.key, d.buffers.flatten)) =
      ((L.map (fun d => (d.key, d.buffers.flatten))).filter (fun p => p.1 == k)) := by
  induction L with
  | nil => rfl
  | cons d rest ih =>
    by_cases h : (d.key == k) = true
    · simp [List.filter_cons, h, ih]
    · simp [List.filter_cons, h, ih]

/-- **C1.** For every tree (any number of entries, across any number of
shards) whose snapshot has no duplicate keys, a full scan delivers exactly
one value per key present in the snapshot, and the bytes delivered for that
key (the concatenation of its buffer group) equal the stored value bytes,
whether the value is inline or segmented. -/
theorem claim_c1_scan_completeness (shards : List (Option Node)) (k : String) (v : Bytes)
    (hnd : ((storeEntries shards).map Prod.fst).Nodup)
    (hmem : (k, v) ∈ storeEntries shards) :
    ((fullScan shards).filter (fun d => d.key == k)).map (fun d => d.buffers.flatten) = [v] := by
  have h1 := map_filter_comp (fullScan shards) k
  rw [fullScan_entries] at h1
  have h2 := filter_of_nodup_keys (storeEntries shards) k v hnd hmem
  have h3 : ((fullScan shards).filter (fun d => d.key == k)).map
      (fun d => (d.key, d.buffers.flatten)) = [(k, v)] := h1.trans h2
  have := congrArg (List.map Prod.snd) h3
  simpa [List.map_map, Function.comp] using this

/-- The example store of the spec: shard A holds one leaf with an inline
value under "a" and a three-segment large value under "b"; shard B is empty. -/
def exampleStore : List (Option Node) :=
  [some (.leaf [⟨"a", .inline [65], 0, 0, none⟩,
                ⟨"b", .large [[1], [2, 3], [4]], 5, 6, some 7⟩]),
   none]

/-- Witness for C1 at the spec's example store: the key "b" (holding a
three-segment large value) is delivered exactly once with the concatenated
segment bytes. -/
theorem claim_c1_scan_completeness_witness :
    ((storeEntries exampleStore).map Prod.fst).Nodup ∧
      ("b", [1, 2, 3, 4]) ∈ storeEntries exampleStore ∧
      ((fullScan exampleStore).filter (fun d => d.key == "b")).map
        (fun d => d.buffers.flatten) = [[1, 2, 3, 4]] :=
  ⟨by decide, by decide,
    claim_c1_scan_completeness exampleStore "b" [1, 2, 3, 4] (by decide) (by decide)⟩

/-- **C5.** For every large value split into k segments of arbitrary sizes,
the buffer group delivered to the sink (`on_large_buf_available` assembling
`get_segment(0) .. get_segment(k-1)`) consists of the segments in segment
order, so their concatenation equals the original byte sequence of the
value. -/
theorem claim_c5_large_value_round_trip (segs : List Bytes) :
    buffersOf (.large segs) = segs ∧
      (buffersOf (.large segs)).flatten = valueBytes (.large segs) := by
  refine ⟨?_, buffersOf_join _⟩
  simpa [buffersOf] using assembleSegments_eq segs

/-! ### Trigger registry: `btree_replicant_t::install` / `uninstall`

The per-slice `replicants` vector is modelled as a list of coordinator
identifiers; `this` becomes the identifier `self`. -/

/-- `btree_replicant_t::install`: `slice->replicants.push_back(this)` —
an unconditional append, with no duplicate check. -/
def install (self : Nat) (registry : List Nat) : List Nat :=
  registry ++ [self]

/-- Outcome of `btree_replicant_t::uninstall`: either the fatal
`fail("We were never installed on this slice.")`, or removal of the first
matching entry together with the flag that
`do_on_cpu(home_cpu, this, &btree_replicant_t::have_uninstalled)` was
scheduled back on the coordinator's home context. -/
inductive UninstallOutcome where
  | fatal
  | removed (registry : List Nat) (scheduledHaveUninstalled : Bool)
deriving DecidableEq

/-- The iterator loop of `btree_replicant_t::uninstall`: scan
`slice->replicants` from the front; on the first entry equal to `this`,
erase it, schedule `have_uninstalled` and return; if the loop falls
through, fail fatally. -/
def uninstallLoop (self : Nat) : List Nat → UninstallOutcome
  | [] => .fatal
  | r :: rest =>
    if r = self then .removed rest true
    else
      match uninstallLoop self rest with
      | .fatal => .fatal
      | .removed rest' sch => .removed (r :: rest') sch

theorem uninstallLoop_not_mem (self : Nat) (reg : List Nat) (h : self ∉ reg) :
    uninstallLoop self reg = .fatal := by
  induction reg with
  | nil => rfl
  | cons r rest ih =>
    have hr : r ≠ self := fun he => h (he ▸ List.mem_cons_self r rest)
    have hrest : self ∉ rest := fun hm => h (List.mem_cons_of_mem r hm)
    simp [uninstallLoop, hr, ih hrest]

theorem uninstallLoop_mem (self : Nat) (reg : List Nat) (h : self ∈ reg) :
    uninstallLoop self reg = .removed (reg.erase self) true := by
  induction reg with
  | nil => cases h
  | cons r rest ih =>
    by_cases hr : r = self
    · subst hr
      simp [uninstallLoop, List.erase_cons_head]
    · have hrest : self ∈ rest := by
        rcases List.mem_cons.mp h with h' | h'
        · exact absurd h'.symm hr
        · exact h'
      have hbe : (r == self) = false := beq_eq_false_iff_ne.mpr hr
      simp [uninstallLoop, hr, ih hrest, List.erase_cons, hbe]

/-- **C6.** For every shard, uninstalling a coordinator that is not present
in that shard's trigger registry is a fatal protocol violation (the loop in
`btree_replicant_t::uninstall` falls through to `fail(...)`), never a silent
no-op; when the coordinator is present, `uninstall` removes its first
matching entry and schedules a `have_uninstalled` callback on the
coordinator's home context. -/
theorem claim_c6_uninstall_fatal (self : Nat) (reg : List Nat) :
    (self ∉ reg → uninstallLoop self reg = .fatal) ∧
      (self ∈ reg → uninstallLoop self reg = .removed (reg.erase self) true) :=
  ⟨uninstallLoop_not_mem self reg, uninstallLoop_mem self reg⟩

/-- Witness for C6: coordinator 1 is absent from the registry `[2]`
(fatal), and present in `[2, 1]` (removed, callback scheduled). -/
theorem claim_c6_uninstall_fatal_witness :
    uninstallLoop 1 [2] = .fatal ∧ uninstallLoop 1 [2, 1] = .removed [2] true :=
  ⟨(claim_c6_uninstall_fatal 1 [2]).1 (by decide),
   (claim_c6_uninstall_fatal 1 [2, 1]).2 (by decide)⟩

/-- **C9.** `install` appends to the trigger registry unconditionally, with
no duplicate check: installing the same coordinator twice on one shard
leaves two registry entries, and a single `uninstall` removes only the
first matching entry (one entry of the coordinator remains per extra
install). -/
theorem claim_c9_install_no_dedup (self : Nat) (reg : List Nat) :
    install self (install self reg) = reg ++ [self, self] ∧
      (install self (install self reg)).count self = reg.count self + 2 ∧
      uninstallLoop self (install self (install self reg)) =
        .removed ((reg ++ [self, self]).erase self) true ∧
      ((reg ++ [self, self]).erase self).count self = reg.count self + 1 := by
  have happ : install self (install self reg) = reg ++ [self, self] := by
    simp [install]
  have hcount : (reg ++ [self, self]).count self = reg.count self + 2 := by
    simp [List.count_append]
  refine ⟨happ, by rw [happ]; exact hcount, ?_, ?_⟩
  · rw [happ]
    exact uninstallLoop_mem self _ (by simp)
  · rw [List.count_erase_self, hcount]
    omega

/-! ### Coordinator shutdown protocol (`btree_replicant_t`)

Small-step model.  Each shard is pinned to a home context; `do_on_cpu`
message sends become pending-message counters/flags, and messages to the
same slice are processed in the order they were scheduled (the install
scheduled by the constructor runs before the uninstall scheduled by
`stop()`).  The uninitialized `active_uninstallations` member is modelled
by an arbitrary `junk` initial value plus the ghost flag `auSet` recording
whether `stop()` has assigned it. -/

/-- Per-slice message/registry state: whether the constructor's install
message is still queued, whether `stop()`'s uninstall message is still
queued, and whether this coordinator currently sits in the slice's
`replicants` vector. -/
structure SliceSt where
  installPending : Bool
  uninstallPending : Bool
  installed : Bool
deriving DecidableEq

/-- Coordinator state: the fields of `btree_replicant_t` (`stopping`,
`active_slice_walkers`, `active_uninstallations`) plus the pending
asynchronous work (`pendingScans` slice walkers that have not yet reported,
`pendingHaveUn` scheduled `have_uninstalled` callbacks, per-slice message
state) and observables (`stoppedCalls` counts `callback->stopped()`
invocations, `deleted` records `delete this`). -/
structure CoordState where
  n : Nat
  stopping : Bool
  active_slice_walkers : Int
  active_uninstallations : Int
  auSet : Bool
  stoppedCalls : Nat
  deleted : Bool
  pendingScans : Nat
  pendingHaveUn : Nat
  slices : List SliceSt
deriving DecidableEq

/-- `btree_replicant_t::done`: `assert(stopping); callback->stopped();
delete this;`. -/
def done (s : CoordState) : CoordState :=
  { s with stoppedCalls := s.stoppedCalls + 1, deleted := true }

/-- `btree_replicant_t::slice_walker_done`: decrement
`active_slice_walkers`; if `stopping && active_slice_walkers == 0 &&
active_uninstallations == 0` (with the decremented counter), call
`done()`. -/
def slice_walker_done (s : CoordState) : CoordState :=
  if s.stopping = true ∧ s.active_slice_walkers - 1 = 0 ∧ s.active_uninstallations = 0
  then done { s with active_slice_walkers := s.active_slice_walkers - 1 }
  else { s with active_slice_walkers := s.active_slice_walkers - 1 }

/-- `btree_replicant_t::have_uninstalled`: `assert(stopping)`, decrement
`active_uninstallations`; if it (decremented) and `active_slice_walkers`
are both zero, call `done()`. -/
def have_uninstalled (s : CoordState) : CoordState :=
  if s.active_uninstallations - 1 = 0 ∧ s.active_slice_walkers = 0
  then done { s with active_uninstallations := s.active_uninstallations - 1 }
  else { s with active_uninstallations := s.active_uninstallations - 1 }

/-- `btree_replicant_t::stop`: set `stopping`, assign
`active_uninstallations = n_slices`, and schedule an uninstall message on
every slice's home context. -/
def stop (s : CoordState) : CoordState :=
  { s with stopping := true, auSet := true,
           active_uninstallations := (s.n : Int),
           slices := s.slices.map (fun sl => { sl with uninstallPending := true }) }

/-- The asynchronous events the coordinator reacts to. -/
inductive CLabel where
  | scanDone
  | stopCall
  | installMsg (i : Nat)
  | uninstallMsg (i : Nat)
  | haveUninstalledMsg
deriving DecidableEq

/-- One step of the coordinator system.  `scanDone` is a slice walker's
`report()` running on the coordinator's context; `stopCall` is the single
external `stop()` call; `installMsg i` / `uninstallMsg i` are the messages
run on slice `i`'s context (an uninstall can only run once the earlier
install message of the same slice has been processed, since both sit in
that context's FIFO queue); `haveUninstalledMsg` is a scheduled
`have_uninstalled` callback running on the coordinator's context. -/
def cstep (s : CoordState) : CLabel → Option CoordState
  | .scanDone =>
    if s.deleted then none
    else if s.pendingScans = 0 then none
    else some (slice_walker_done { s with pendingScans := s.pendingScans - 1 })
  | .stopCall =>
    if s.deleted then none
    else if s.stopping then none
    else some (stop s)
  | .installMsg i =>
    match s.slices.get? i with
    | none => none
    | some sl =>
      if sl.installPending then
        some { s with
          slices := s.slices.set i { sl with installPending := false, installed := true } }
      else none
  | .uninstallMsg i =>
    match s.slices.get? i with
    | none => none
    | some sl =>
      if sl.uninstallPending && !sl.installPending then
        some { s with
          slices := s.slices.set i { sl with uninstallPending := false, installed := false },
          pendingHaveUn := s.pendingHaveUn + 1 }
      else none
  | .haveUninstalledMsg =>
    if s.deleted then none
    else if s.pendingHaveUn = 0 then none
    else some (have_uninstalled { s with pendingHaveUn := s.pendingHaveUn - 1 })

/-- State right after the constructor ran: `active_slice_walkers =
n_slices`, all slice walkers launched and still running, one install
message queued per slice, `active_uninstallations` uninitialized
(arbitrary `junk`). -/
def cinit (n : Nat) (junk : Int) : CoordState :=
  { n := n, stopping := false, active_slice_walkers := (n : Int),
    active_uninstallations := junk, auSet := false, stoppedCalls := 0,
    deleted := false, pendingScans := n, pendingHaveUn := 0,
    slices := List.replicate n ⟨true, false, false⟩ }

/-- Reachability from the freshly constructed coordinator. -/
inductive CReach (n : Nat) (junk : Int) : CoordState → Prop where
  | init : CReach n junk (cinit n junk)
  | step {s s' : CoordState} {l : CLabel} :
      CReach n junk s → cstep s l = some s' → CReach n junk s'

/-- Number of slices whose uninstall message is still queued. -/
def countU (s : CoordState) : Nat :=
  (s.slices.filter (fun sl => sl.uninstallPending)).length

/-- Number of slices whose install message is still queued. -/
def countI (s : CoordState) : Nat :=
  (s.slices.filter (fun sl => sl.installPending)).length

/-- Decreasing measure: every step strictly reduces it, so every execution
of the coordinator system is finite. -/
def cmeasure (s : CoordState) : Nat :=
  s.pendingScans + countI s + 2 * countU s + s.pendingHaveUn +
    (if s.stopping then 0 else 2 * s.n + 1)

/-- No event is enabled: every pending message has been drained (and
`stop()` has been called, since it stays enabled until it happens). -/
def CTerminal (s : CoordState) : Prop := ∀ l, cstep s l = none

/-! ### List helpers for per-slice updates -/

theorem length_filter_set_eq {α : Type _} (p : α → Bool) :
    ∀ (l : List α) (i : Nat) (a a' : α), l.get? i = some a → p a' = p a →
      ((l.set i a').filter p).length = (l.filter p).length := by
  intro l
  induction l with
  | nil => intro i a a' h _; simp [List.get?] at h
  | cons x xs ih =>
    intro i a a' hget hp
    cases i with
    | zero =>
      simp only [List.get?] at hget
      injection hget with hxa
      subst hxa
      simp only [List.set]
      rw [List.filter_cons, List.filter_cons, hp]
      cases hpx : p x <;> simp [hpx]
    | succ j =>
      simp only [List.get?] at hget
      simp only [List.set]
      rw [List.filter_cons, List.filter_cons]
      cases hpx : p x <;> simp [hpx, ih j a a' hget hp]

theorem length_filter_set_tf {α : Type _} (p : α → Bool) :
    ∀ (l : List α) (i : Nat) (a a' : α), l.get? i = some a → p a = true → p a' = false →
      ((l.set i a').filter p).length + 1 = (l.filter p).length := by
  intro l
  induction l with
  | nil => intro i a a' h _ _; simp [List.get?] at h
  | cons x xs ih =>
    intro i a a' hget hpa hpa'
    cases i with
    | zero =>
      simp only [List.get?] at hget
      injection hget with hxa
      subst hxa
      simp only [List.set]
      rw [List.filter_cons, List.filter_cons, hpa, hpa']
      simp
    | succ j =>
      simp only [List.get?] at hget
      simp only [List.set]
      rw [List.filter_cons, List.filter_cons]
      cases hpx : p x <;> simp [hpx, Nat.succ_eq_add_one, ih j a a' hget hpa hpa']

theorem length_filter_map {α β : Type _} (g : α → β) (p : β → Bool) (l : List α) :
    ((l.map g).filter p).length = (l.filter (fun a => p (g a))).length := by
  induction l with
  | nil => rfl
  | cons x xs ih =>
    simp only [List.map_cons, List.filter_cons]
    cases h : p (g x) <;> simp [h, ih]

/-! ### Coordinator invariant -/

/-- Inductive invariant of the coordinator system, tying the two counters
to the pending messages and capturing the shutdown-safety facts. -/
structure CInv (n : Nat) (junk : Int) (s : CoordState) : Prop where
  hn : s.n = n
  hlen : s.slices.length = n
  hsw : s.active_slice_walkers = (s.pendingScans : Int)
  hau : s.auSet = s.stopping
  hpre : s.stopping = false →
      s.active_uninstallations = junk ∧ s.pendingHaveUn = 0 ∧ s.deleted = false ∧
      ∀ sl ∈ s.slices, sl.uninstallPending = false ∧
        (sl.installPending = false → sl.installed = true)
  hcnt : s.stopping = true →
      s.active_uninstallations = (countU s : Int) + (s.pendingHaveUn : Int)
  hdel : s.deleted = true →
      s.stopping = true ∧ s.active_slice_walkers = 0 ∧ s.active_uninstallations = 0
  hstop : s.stoppedCalls = if s.deleted then 1 else 0
  hslice : ∀ sl ∈ s.slices, sl.installPending = false → sl.uninstallPending = true →
      sl.installed = true
  hfin : 1 ≤ n → s.stopping = true → s.active_slice_walkers = 0 →
      s.active_uninstallations = 0 → s.deleted = true
theorem cinv_init (n : Nat) (junk : Int) : CInv n junk (cinit n junk) := by
  refine ⟨rfl, by simp [cinit], by simp [cinit], rfl, ?_, ?_, ?_, rfl, ?_, ?_⟩
  · intro _
    refine ⟨rfl, rfl, rfl, ?_⟩
    intro sl hsl
    have h := List.eq_of_mem_replicate hsl
    subst h
    exact ⟨rfl, fun h => by simp at h⟩
  · intro h; simp [cinit] at h
  · intro h; simp [cinit] at h
  · intro sl hsl
    have h := List.eq_of_mem_replicate hsl
    subst h
    intro h; simp at h
  · intro _ h; simp [cinit] at h

theorem cinv_step {n : Nat} {junk : Int} {s s' : CoordState} {l : CLabel}
    (hi : CInv n junk s) (hst : cstep s l = some s') : CInv n junk s' := by
  obtain ⟨hn, hlen, hsw, hau, hpre, hcnt, hdel, hstop, hslice, hfin⟩ := hi
  cases l with
  | scanDone =>
    simp only [cstep] at hst
    split at hst
    · simp at hst
    next hdl =>
    split at hst
    · simp at hst
    next hps0 =>
    injection hst with hst
    subst hst
    have hdl' : s.deleted = false := by simpa using hdl
    have hps : s.pendingScans ≠ 0 := hps0
    unfold slice_walker_done
    split
    next hg =>
      have hg1 : s.stopping = true := hg.1
      have hg2 : s.active_slice_walkers - 1 = 0 := hg.2.1
      have hg3 : s.active_uninstallations = 0 := hg.2.2
      refine ⟨hn, hlen, ?_, hau, ?_, ?_, ?_, ?_, hslice, ?_⟩
      · show s.active_slice_walkers - 1 = ((s.pendingScans - 1 : Nat) : Int)
        omega
      · intro h
        have h' : s.stopping = false := h
        rw [h'] at hg1; exact absurd hg1 (by simp)
      · intro _
        exact hcnt hg1
      · intro _
        exact ⟨hg1, hg2, hg3⟩
      · show s.stoppedCalls + 1 = if true then 1 else 0
        rw [hstop, hdl']
        simp
      · intro _ _ _ _
        rfl
    next hg =>
      refine ⟨hn, hlen, ?_, hau, ?_, ?_, ?_, ?_, hslice, ?_⟩
      · show s.active_slice_walkers - 1 = ((s.pendingScans - 1 : Nat) : Int)
        omega
      · intro h
        have h' : s.stopping = false := h
        obtain ⟨h1, h2, h3, h4⟩ := hpre h'
        exact ⟨h1, h2, hdl', h4⟩
      · intro h
        exact hcnt h
      · intro h
        have h' : s.deleted = true := h
        rw [hdl'] at h'; exact absurd h' (by simp)
      · exact hstop
      · intro h1 h2 h3 h4
        have h2' : s.stopping = true := h2
        have h3' : s.active_slice_walkers - 1 = 0 := h3
        have h4' : s.active_uninstallations = 0 := h4
        exact absurd ⟨h2', h3', h4'⟩ hg
  | stopCall =>
    simp only [cstep] at hst
    split at hst
    · simp at hst
    next hdl =>
    split at hst
    · simp at hst
    next hstp =>
    injection hst with hst
    subst hst
    have hstp' : s.stopping = false := by simpa using hstp
    obtain ⟨hau0, hph0, hdl0, hsl0⟩ := hpre hstp'
    have hcu : countU (stop s) = n := by
      unfold countU stop
      rw [length_filter_map]
      rw [List.filter_eq_self.mpr (fun a _ => rfl)]
      exact hlen
    refine ⟨hn, ?_, hsw, rfl, ?_, ?_, ?_, hstop, ?_, ?_⟩
    · show (s.slices.map _).length = n
      simpa using hlen
    · intro h
      have h' : (true : Bool) = false := h
      exact absurd h' (by simp)
    · intro _
      rw [hcu]
      show (s.n : Int) = (n : Int) + (s.pendingHaveUn : Int)
      rw [hn, hph0]
      simp
    · intro h
      have h' : s.deleted = true := h
      rw [hdl0] at h'; exact absurd h' (by simp)
    · intro sl' hsl' hip hup
      have hm : sl' ∈ s.slices.map (fun sl => { sl with uninstallPending := true }) := hsl'
      rcases List.mem_map.mp hm with ⟨sl, hsl, rfl⟩
      have hip' : sl.installPending = false := hip
      exact (hsl0 sl hsl).2 hip'
    · intro h1 _ _ h4
      have h4' : (s.n : Int) = 0 := h4
      rw [hn] at h4'
      omega
  | installMsg i =>
    simp only [cstep] at hst
    split at hst
    · simp at hst
    next sl hget =>
    split at hst
    next hip =>
      injection hst with hst
      subst hst
      have hslmem : sl ∈ s.slices := List.get?_mem hget
      refine ⟨hn, ?_, hsw, hau, ?_, ?_, hdel, hstop, ?_, hfin⟩
      · show (s.slices.set i _).length = n
        simpa using hlen
      · intro h
        have h' : s.stopping = false := h
        obtain ⟨h1, h2, h3, h4⟩ := hpre h'
        refine ⟨h1, h2, h3, ?_⟩
        intro sl' hsl'
        have hm : sl' ∈ s.slices.set i { sl with installPending := false, installed := true } :=
          hsl'
        rcases List.mem_or_eq_of_mem_set hm with hmm | rfl
        · exact h4 sl' hmm
        · exact ⟨(h4 sl hslmem).1, fun _ => rfl⟩
      · intro h
        have h' : s.stopping = true := h
        have hcu : ((s.slices.set i { sl with installPending := false, installed := true }).filter
            (fun sl => sl.uninstallPending)).length
            = (s.slices.filter (fun sl => sl.uninstallPending)).length :=
          length_filter_set_eq (fun sl : SliceSt => sl.uninstallPending) s.slices i sl
            { sl with installPending := false, installed := true } hget rfl
        show s.active_uninstallations
            = (((s.slices.set i { sl with installPending := false, installed := true }).filter
                (fun sl => sl.uninstallPending)).length : Int) + (s.pendingHaveUn : Int)
        rw [hcu]
        exact hcnt h'
      · intro sl' hsl'
        have hm : sl' ∈ s.slices.set i { sl with installPending := false, installed := true } :=
          hsl'
        rcases List.mem_or_eq_of_mem_set hm with hmm | rfl
        · exact hslice sl' hmm
        · intro _ _; rfl
    · simp at hst
  | uninstallMsg i =>
    simp only [cstep] at hst
    split at hst
    · simp at hst
    next sl hget =>
    split at hst
    next hcond =>
      injection hst with hst
      subst hst
      have hup : sl.uninstallPending = true := by
        cases hu : sl.uninstallPending
        · rw [hu] at hcond; simp at hcond
        · rfl
      have hip : sl.installPending = false := by
        cases hb : sl.installPending
        · rfl
        · rw [hb] at hcond; simp at hcond
      have hslmem : sl ∈ s.slices := List.get?_mem hget
      have hstp : s.stopping = true := by
        cases h : s.stopping
        · obtain ⟨_, _, _, h4⟩ := hpre h
          have := (h4 sl hslmem).1
          rw [this] at hup; exact absurd hup (by simp)
        · rfl
      have hcu : ((s.slices.set i
            { sl with uninstallPending := false, installed := false }).filter
            (fun sl => sl.uninstallPending)).length + 1
          = (s.slices.filter (fun sl => sl.uninstallPending)).length :=
        length_filter_set_tf (fun sl : SliceSt => sl.uninstallPending) s.slices i sl
          { sl with uninstallPending := false, installed := false } hget hup rfl
      have hcnt' := hcnt hstp
      unfold countU at hcnt'
      refine ⟨hn, ?_, hsw, hau, ?_, ?_, ?_, hstop, ?_, ?_⟩
      · show (s.slices.set i _).length = n
        simpa using hlen
      · intro h
        have h' : s.stopping = false := h
        rw [h'] at hstp; exact absurd hstp (by simp)
      · intro _
        show s.active_uninstallations
            = (((s.slices.set i { sl with uninstallPending := false, installed := false }).filter
                (fun sl => sl.uninstallPending)).length : Int) + ((s.pendingHaveUn + 1 : Nat) : Int)
        omega
      · intro h
        have h' : s.deleted = true := h
        obtain ⟨_, _, hau0⟩ := hdel h'
        exfalso
        omega
      · intro sl' hsl'
        have hm : sl' ∈ s.slices.set i { sl with uninstallPending := false, installed := false } :=
          hsl'
        rcases List.mem_or_eq_of_mem_set hm with hmm | rfl
        · exact hslice sl' hmm
        · intro _ h; exact absurd h (by simp)
      · intro h1 h2 h3 h4
        have h4' : s.active_uninstallations = 0 := h4
        exfalso
        omega
    · simp at hst
  | haveUninstalledMsg =>
    simp only [cstep] at hst
    split at hst
    · simp at hst
    next hdl =>
    split at hst
    · simp at hst
    next hph0 =>
    injection hst with hst
    subst hst
    have hdl' : s.deleted = false := by simpa using hdl
    have hph : s.pendingHaveUn ≠ 0 := hph0
    have hstp : s.stopping = true := by
      cases h : s.stopping
      · obtain ⟨_, h2, _, _⟩ := hpre h
        exact absurd h2 hph
      · rfl
    have hcnt' := hcnt hstp
    unfold have_uninstalled
    split
    next hg =>
      have hg1 : s.active_uninstallations - 1 = 0 := hg.1
      have hg2 : s.active_slice_walkers = 0 := hg.2
      refine ⟨hn, hlen, hsw, hau, ?_, ?_, ?_, ?_, hslice, ?_⟩
      · intro h
        have h' : s.stopping = false := h
        rw [h'] at hstp; exact absurd hstp (by simp)
      · intro _
        show s.active_uninstallations - 1
            = (countU s : Int) + (((s.pendingHaveUn - 1 : Nat)) : Int)
        omega
      · intro _
        exact ⟨hstp, hg2, hg1⟩
      · show s.stoppedCalls + 1 = if true then 1 else 0
        rw [hstop, hdl']
        simp
      · intro _ _ _ _
        rfl
    next hg =>
      refine ⟨hn, hlen, hsw, hau, ?_, ?_, ?_, ?_, hslice, ?_⟩
      · intro h
        have h' : s.stopping = false := h
        rw [h'] at hstp; exact absurd hstp (by simp)
      · intro _
        show s.active_uninstallations - 1
            = (countU s : Int) + (((s.pendingHaveUn - 1 : Nat)) : Int)
        omega
      · intro h
        have h' : s.deleted = true := h
        rw [hdl'] at h'; exact absurd h' (by simp)
      · exact hstop
      · intro h1 h2 h3 h4
        have h3' : s.active_slice_walkers = 0 := h3
        have h4' : s.active_uninstallations - 1 = 0 := h4
        exact absurd ⟨h4', h3'⟩ hg

theorem cinv (n : Nat) (junk : Int) (s : CoordState) (h : CReach n junk s) :
    CInv n junk s := by
  induction h with
  | init => exact cinv_init n junk
  | step _ hst ih => exact cinv_step ih hst

theorem cmeasure_decr {n : Nat} {junk : Int} {s s' : CoordState} {l : CLabel}
    (hi : CInv n junk s) (hst : cstep s l = some s') : cmeasure s' < cmeasure s := by
  obtain ⟨hn, hlen, hsw, hau, hpre, hcnt, hdel, hstop, hslice, hfin⟩ := hi
  cases l with
  | scanDone =>
    simp only [cstep] at hst
    split at hst
    · simp at hst
    split at hst
    · simp at hst
    next hps0 =>
    injection hst with hst
    subst hst
    have hps : s.pendingScans ≠ 0 := hps0
    unfold slice_walker_done
    split
    · show s.pendingScans - 1 + countI s + 2 * countU s + s.pendingHaveUn +
          (if s.stopping = true then 0 else 2 * s.n + 1) <
        s.pendingScans + countI s + 2 * countU s + s.pendingHaveUn +
          (if s.stopping = true then 0 else 2 * s.n + 1)
      omega
    · show s.pendingScans - 1 + countI s + 2 * countU s + s.pendingHaveUn +
          (if s.stopping = true then 0 else 2 * s.n + 1) <
        s.pendingScans + countI s + 2 * countU s + s.pendingHaveUn +
          (if s.stopping = true then 0 else 2 * s.n + 1)
      omega
  | stopCall =>
    simp only [cstep] at hst
    split at hst
    · simp at hst
    next hdl =>
    split at hst
    · simp at hst
    next hstp =>
    injection hst with hst
    subst hst
    have hstp' : s.stopping = false := by simpa using hstp
    obtain ⟨hau0, hph0, hdl0, hsl0⟩ := hpre hstp'
    have hU0 : countU s = 0 := by
      unfold countU
      rw [List.filter_eq_nil_iff.mpr
        (fun sl hm h => by rw [(hsl0 sl hm).1] at h; simp at h)]
      rfl
    have hI : ((s.slices.map (fun sl => { sl with uninstallPending := true })).filter
        (fun sl : SliceSt => sl.installPending)).length = countI s := by
      rw [length_filter_map]
      rfl
    have hU : ((s.slices.map (fun sl => { sl with uninstallPending := true })).filter
        (fun sl : SliceSt => sl.uninstallPending)).length = s.slices.length := by
      rw [length_filter_map]
      rw [List.filter_eq_self.mpr (fun a _ => rfl)]
    show s.pendingScans +
        ((s.slices.map (fun sl => { sl with uninstallPending := true })).filter
          (fun sl : SliceSt => sl.installPending)).length +
        2 * ((s.slices.map (fun sl => { sl with uninstallPending := true })).filter
          (fun sl : SliceSt => sl.uninstallPending)).length +
        s.pendingHaveUn + (if true = true then 0 else 2 * s.n + 1) <
      s.pendingScans + countI s + 2 * countU s + s.pendingHaveUn +
        (if s.stopping = true then 0 else 2 * s.n + 1)
    rw [hI, hU, hlen, hstp', hU0]
    simp
    omega
  | installMsg i =>
    simp only [cstep] at hst
    split at hst
    · simp at hst
    next sl hget =>
    split at hst
    next hip =>
      injection hst with hst
      subst hst
      have hIset : ((s.slices.set i { sl with installPending := false, installed := true }).filter
          (fun sl : SliceSt => sl.installPending)).length + 1
          = (s.slices.filter (fun sl : SliceSt => sl.installPending)).length :=
        length_filter_set_tf (fun sl : SliceSt => sl.installPending) s.slices i sl
          { sl with installPending := false, installed := true } hget hip rfl
      have hUset : ((s.slices.set i { sl with installPending := false, installed := true }).filter
          (fun sl : SliceSt => sl.uninstallPending)).length
          = (s.slices.filter (fun sl : SliceSt => sl.uninstallPending)).length :=
        length_filter_set_eq (fun sl : SliceSt => sl.uninstallPending) s.slices i sl
          { sl with installPending := false, installed := true } hget rfl
      show s.pendingScans +
          ((s.slices.set i { sl with installPending := false, installed := true }).filter
            (fun sl : SliceSt => sl.installPending)).length +
          2 * ((s.slices.set i { sl with installPending := false, installed := true }).filter
            (fun sl : SliceSt => sl.uninstallPending)).length +
          s.pendingHaveUn + (if s.stopping = true then 0 else 2 * s.n + 1) <
        s.pendingScans + countI s + 2 * countU s + s.pendingHaveUn +
          (if s.stopping = true then 0 else 2 * s.n + 1)
      unfold countI countU
      omega
    · simp at hst
  | uninstallMsg i =>
    simp only [cstep] at hst
    split at hst
    · simp at hst
    next sl hget =>
    split at hst
    next hcond =>
      injection hst with hst
      subst hst
      have hup : sl.uninstallPending = true := by
        cases hu : sl.uninstallPending
        · rw [hu] at hcond; simp at hcond
        · rfl
      have hUset : ((s.slices.set i
            { sl with uninstallPending := false, installed := false }).filter
            (fun sl : SliceSt => sl.uninstallPending)).length + 1
          = (s.slices.filter (fun sl : SliceSt => sl.uninstallPending)).length :=
        length_filter_set_tf (fun sl : SliceSt => sl.uninstallPending) s.slices i sl
          { sl with uninstallPending := false, installed := false } hget hup rfl
      have hIset : ((s.slices.set i
            { sl with uninstallPending := false, installed := false }).filter
            (fun sl : SliceSt => sl.installPending)).length
          = (s.slices.filter (fun sl : SliceSt => sl.installPending)).length :=
        length_filter_set_eq (fun sl : SliceSt => sl.installPending) s.slices i sl
          { sl with uninstallPending := false, installed := false } hget rfl
      show s.pendingScans +
          ((s.slices.set i { sl with uninstallPending := false, installed := false }).filter
            (fun sl : SliceSt => sl.installPending)).length +
          2 * ((s.slices.set i { sl with uninstallPending := false, installed := false }).filter
            (fun sl : SliceSt => sl.uninstallPending)).length +
          (s.pendingHaveUn + 1) + (if s.stopping = true then 0 else 2 * s.n + 1) <
        s.pendingScans + countI s + 2 * countU s + s.pendingHaveUn +
          (if s.stopping = true then 0 else 2 * s.n + 1)
      unfold countI countU
      omega
    · simp at hst
  | haveUninstalledMsg =>
    simp only [cstep] at hst
    split at hst
    · simp at hst
    split at hst
    · simp at hst
    next hph0 =>
    injection hst with hst
    subst hst
    have hph : s.pendingHaveUn ≠ 0 := hph0
    unfold have_uninstalled
    split
    · show s.pendingScans + countI s + 2 * countU s + (s.pendingHaveUn - 1) +
          (if s.stopping = true then 0 else 2 * s.n + 1) <
        s.pendingScans + countI s + 2 * countU s + s.pendingHaveUn +
          (if s.stopping = true then 0 else 2 * s.n + 1)
      omega
    · show s.pendingScans + countI s + 2 * countU s + (s.pendingHaveUn - 1) +
          (if s.stopping = true then 0 else 2 * s.n + 1) <
        s.pendingScans + countI s + 2 * countU s + s.pendingHaveUn +
          (if s.stopping = true then 0 else 2 * s.n + 1)
      omega

theorem cterminal_stopped {n : Nat} {junk : Int} {s : CoordState}
    (hn1 : 1 ≤ n) (hr : CReach n junk s) (ht : CTerminal s) : s.stoppedCalls = 1 := by
  obtain ⟨hn, hlen, hsw, hau, hpre, hcnt, hdel, hstop, hslice, hfin⟩ := cinv n junk s hr
  by_cases hd : s.deleted = true
  · rw [hstop, hd]; simp
  · have hd' : s.deleted = false := by simpa using hd
    have hstp : s.stopping = true := by
      cases hb : s.stopping
      · have h := ht .stopCall
        simp only [cstep] at h
        rw [hd', hb] at h
        simp at h
      · rfl
    have hps : s.pendingScans = 0 := by
      have h := ht .scanDone
      simp only [cstep] at h
      rw [hd'] at h
      by_contra hne
      simp [hne] at h
    have hph : s.pendingHaveUn = 0 := by
      have h := ht .haveUninstalledMsg
      simp only [cstep] at h
      rw [hd'] at h
      by_contra hne
      simp [hne] at h
    have hslices : ∀ sl ∈ s.slices, sl.uninstallPending = false := by
      intro sl hm
      obtain ⟨idx, hidx⟩ := List.get?_of_mem hm
      have hI := ht (.installMsg idx)
      have hU := ht (.uninstallMsg idx)
      simp only [cstep, hidx] at hI hU
      have hip : sl.installPending = false := by
        cases hb : sl.installPending
        · rfl
        · rw [hb] at hI; simp at hI
      cases hb : sl.uninstallPending
      · rfl
      · rw [hb, hip] at hU; simp at hU
    have hcu0 : countU s = 0 := by
      unfold countU
      rw [List.filter_eq_nil_iff.mpr
        (fun sl hm h => by rw [hslices sl hm] at h; simp at h)]
      rfl
    have hau0 : s.active_uninstallations = 0 := by
      have h := hcnt hstp
      rw [hcu0, hph] at h
      simpa using h
    have hsw0 : s.active_slice_walkers = 0 := by
      rw [hsw, hps]; rfl
    have hcontra := hfin hn1 hstp hsw0 hau0
    rw [hd'] at hcontra
    exact absurd hcontra (by simp)

/-- **C2 counterexample.** With a store of zero shards, `stop()` on the
freshly constructed coordinator leaves the system in a stuck state: no
event is enabled any more, yet `callback->stopped()` was never invoked
(nothing ever calls `done()`), so "stop() eventually invokes the stopped
notification" fails at `n_slices = 0`. -/
theorem claim_c2_counterexample :
    cstep (cinit 0 0) .stopCall = some (stop (cinit 0 0))
    ∧ (stop (cinit 0 0)).stopping = true
    ∧ (stop (cinit 0 0)).stoppedCalls = 0
    ∧ CTerminal (stop (cinit 0 0)) := by
  refine ⟨rfl, rfl, rfl, ?_⟩
  intro l
  cases l with
  | scanDone => rfl
  | stopCall => rfl
  | installMsg i => cases i <;> rfl
  | uninstallMsg i => cases i <;> rfl
  | haveUninstalledMsg => rfl

/-- **C2 (amended: the store has at least one shard).** For every store
with `n_slices ≥ 1`, along every reachable state of the coordinator
system: the stopped notification has been invoked at most once; whenever
it has been invoked, `stopping` is set and both `active_slice_walkers` and
`active_uninstallations` are zero (so it is never invoked before both
counters are zero, and finalization is reached only once, from whichever
of `slice_walker_done`/`have_uninstalled` observes both counters at zero);
every step strictly decreases `cmeasure`, so every execution is finite;
and in any stuck state (all pending work drained — `stop()` included,
since it stays enabled until called) the notification has been invoked
exactly once.  Together these give: calling `stop()` at any point
eventually invokes the sink's stopped notification exactly once. -/
theorem claim_c2_shutdown_safety (n : Nat) (junk : Int) (s : CoordState)
    (hn1 : 1 ≤ n) (hr : CReach n junk s) :
    s.stoppedCalls ≤ 1
    ∧ (1 ≤ s.stoppedCalls →
        s.stopping = true ∧ s.active_slice_walkers = 0 ∧ s.active_uninstallations = 0)
    ∧ (CTerminal s → s.stoppedCalls = 1)
    ∧ (∀ l s', cstep s l = some s' → cmeasure s' < cmeasure s) := by
  have inv := cinv n junk s hr
  refine ⟨?_, ?_, fun ht => cterminal_stopped hn1 hr ht, fun l s' h => cmeasure_decr inv h⟩
  · rw [inv.hstop]
    split <;> simp
  · intro h
    have hd : s.deleted = true := by
      by_contra hdc
      have hd' : s.deleted = false := by simpa using hdc
      rw [inv.hstop, hd'] at h
      simp at h
    exact inv.hdel hd

/-- Witness for C2 at a one-shard store, applied at the initial state. -/
theorem claim_c2_shutdown_safety_witness :
    (cinit 1 0).stoppedCalls ≤ 1
    ∧ (1 ≤ (cinit 1 0).stoppedCalls →
        (cinit 1 0).stopping = true ∧ (cinit 1 0).active_slice_walkers = 0 ∧
          (cinit 1 0).active_uninstallations = 0)
    ∧ (CTerminal (cinit 1 0) → (cinit 1 0).stoppedCalls = 1)
    ∧ (∀ l s', cstep (cinit 1 0) l = some s' → cmeasure s' < cmeasure (cinit 1 0)) :=
  claim_c2_shutdown_safety 1 0 (cinit 1 0) (by decide) CReach.init

/-- **C10.** Finalization is unreachable unless `stop()` has been called:
in every reachable state, if the stopped notification has fired then
`stopping` is set (even if all shard scans completed first); while
`stopping` is still false the uninitialized `active_uninstallations`
member has never been written (it still holds the arbitrary construction
junk) and no code has yet acted on it: `slice_walker_done` then only
decrements `active_slice_walkers` — its read of `active_uninstallations`
is short-circuited behind the `stopping` flag — and no `have_uninstalled`
callback (whose read sits behind `assert(stopping)`) can be pending. -/
theorem claim_c10_no_finalize_before_stop (n : Nat) (junk : Int) (s : CoordState)
    (hr : CReach n junk s) :
    (1 ≤ s.stoppedCalls → s.stopping = true)
    ∧ (s.auSet = false →
        s.stopping = false ∧ s.active_uninstallations = junk ∧ s.stoppedCalls = 0)
    ∧ (s.stopping = false →
        slice_walker_done s = { s with active_slice_walkers := s.active_slice_walkers - 1 })
    ∧ (s.stopping = false → cstep s .haveUninstalledMsg = none) := by
  have inv := cinv n junk s hr
  refine ⟨?_, ?_, ?_, ?_⟩
  · intro h
    have hd : s.deleted = true := by
      by_contra hdc
      have hd' : s.deleted = false := by simpa using hdc
      rw [inv.hstop, hd'] at h
      simp at h
    exact (inv.hdel hd).1
  · intro h
    have hstp : s.stopping = false := by
      cases hb : s.stopping
      · rfl
      · rw [inv.hau, hb] at h; simp at h
    obtain ⟨h1, _, h3, _⟩ := inv.hpre hstp
    refine ⟨hstp, h1, ?_⟩
    rw [inv.hstop, h3]
    simp
  · intro h
    unfold slice_walker_done
    split
    next hc =>
      rw [h] at hc
      simp at hc
    next => rfl
  · intro h
    obtain ⟨_, h2, _, _⟩ := inv.hpre h
    simp only [cstep]
    simp [h2]

/-- Witness for C10 at a two-shard store with junk value 7, applied at the
initial state. -/
theorem claim_c10_no_finalize_before_stop_witness :
    (1 ≤ (cinit 2 7).stoppedCalls → (cinit 2 7).stopping = true)
    ∧ ((cinit 2 7).auSet = false →
        (cinit 2 7).stopping = false ∧ (cinit 2 7).active_uninstallations = 7 ∧
          (cinit 2 7).stoppedCalls = 0)
    ∧ ((cinit 2 7).stopping = false →
        slice_walker_done (cinit 2 7) =
          { cinit 2 7 with active_slice_walkers := (cinit 2 7).active_slice_walkers - 1 })
    ∧ ((cinit 2 7).stopping = false → cstep (cinit 2 7) .haveUninstalledMsg = none) :=
  claim_c10_no_finalize_before_stop 2 7 (cinit 2 7) CReach.init

/-! ### Shard traversal (`slice_walker_t` / `branch_walker_t`)

Small-step model of one shard's scan.  A `branch_walker_t` suspends at
block acquisition, large-value acquisition and the sink's
done-continuation; each program point between suspensions is a `Phase`.
Spawning the children of an internal node is modelled one child at a time,
which covers both the asynchronous acquisition path and the path where
`txn->acquire` returns the child block synchronously inside the spawn
loop. -/

/-- Control point of one `branch_walker_t`.
* `acquiringBlock`: constructor ran (`active_branch_walkers` already
  incremented), awaiting `on_block_available`;
* `spawningChildren rest`: inside the internal-node loop of
  `on_block_available`, `rest` children still to spawn;
* `leafEntry ps i`: in `have_copied_value` about to examine entry `i`
  (previous large value already released);
* `leafWaitLarge ps i`: `large_value->acquire` issued for entry `i`,
  awaiting `on_large_buf_available`;
* `leafWaitDone ps i`: entry `i` delivered, awaiting the sink's
  done-continuation (`have_copied_value`). -/
inductive Phase where
  | acquiringBlock (node : Node)
  | spawningChildren (rest : List Node)
  | leafEntry (ps : List LeafPair) (i : Nat)
  | leafWaitLarge (ps : List LeafPair) (i : Nat)
  | leafWaitDone (ps : List LeafPair) (i : Nat)

/-- Lifecycle of the owning `slice_walker_t`: awaiting the superblock,
traversal running, transaction committed (`done()` ran) with the `report`
message scheduled, and completion reported
(`parent->slice_walker_done()`). -/
inductive SlicePhase where
  | awaitSuper
  | running
  | committed
  | reported
deriving DecidableEq

/-- One live `branch_walker_t`: an identity, its control point, and the
currently pinned `large_buf_t` (`large_value`, `NULL` = `none`). -/
structure Walker where
  id : Nat
  phase : Phase
  large_value : Option (List Bytes)

/-- State of one shard's scan: the superblock's root
(`NULL_BLOCK_ID` = `none`), the live branch walkers, a fresh-identity
counter, the shared `active_branch_walkers` counter, and the slice
walker's own phase. -/
structure WalkCfg where
  root : Option Node
  walkers : List Walker
  nextId : Nat
  counter : Int
  sphase : SlicePhase

/-- Replace the walker at position `k` (in-place state change of one
`branch_walker_t`). -/
def setW (cfg : WalkCfg) (k : Nat) (w : Walker) : WalkCfg :=
  { cfg with walkers := cfg.walkers.set k w }

/-- `~branch_walker_t`: release the buffer, decrement
`active_branch_walkers`, and if it reached zero call `parent->done()`
(which commits the snapshot transaction and schedules `report`). -/
def deleteAt (cfg : WalkCfg) (k : Nat) : WalkCfg :=
  { cfg with
    walkers := cfg.walkers.eraseIdx k,
    counter := cfg.counter - 1,
    sphase := if cfg.counter - 1 = 0 then .committed else cfg.sphase }

/-- The scheduler's choices: which pending callback runs next. -/
inductive WLabel where
  | superAvail
  | blockAvail (k : Nat)
  | spawnOne (k : Nat)
  | spawnFin (k : Nat)
  | entryStep (k : Nat)
  | largeAvail (k : Nat)
  | doneCont (k : Nat)
  | reportDone
deriving DecidableEq

/-- One step of a shard's traversal, mirroring `slice_walker_t` and
`branch_walker_t`:
* `superAvail`: `slice_walker_t::on_block_available` — if the superblock
  has a root, `walk_branch` it (the new walker's constructor increments
  the shared counter); otherwise `done()` directly;
* `blockAvail k`: `branch_walker_t::on_block_available` — internal node
  enters the spawn loop over its children in pair order; leaf node starts
  `current_pair = -1; large_value = NULL; have_copied_value()`, i.e. is
  about to examine entry 0 with no large value pinned;
* `spawnOne k`: one `walk_branch(parent, pair->lnode)` iteration — a new
  walker is constructed (counter incremented) for the first remaining
  child, in its initial phase;
* `spawnFin k`: the loop is done (`delete this` of the internal-node
  walker);
* `entryStep k`: the body of `have_copied_value` at `current_pair = i`:
  past the last entry `delete this`; a large value issues an asynchronous
  acquire (pinning it); an inline value is delivered immediately;
* `largeAvail k`: `on_large_buf_available` — assemble segments and
  deliver;
* `doneCont k`: the sink invoked the done-continuation
  (`have_copied_value`) — release the pinned large value, advance to the
  next entry;
* `reportDone`: `slice_walker_t::report` runs on the coordinator. -/
def wstep (cfg : WalkCfg) : WLabel → Option WalkCfg
  | .superAvail =>
    match cfg.sphase with
    | .awaitSuper =>
      match cfg.root with
      | some r => some { cfg with
          sphase := .running,
          walkers := cfg.walkers ++ [⟨cfg.nextId, .acquiringBlock r, none⟩],
          nextId := cfg.nextId + 1,
          counter := cfg.counter + 1 }
      | none => some { cfg with sphase := .committed }
    | _ => none
  | .blockAvail k =>
    match cfg.walkers.get? k with
    | none => none
    | some w =>
      match w.phase with
      | .acquiringBlock (.internal ps) =>
        some (setW cfg k { w with phase := .spawningChildren (childrenOf ps) })
      | .acquiringBlock (.leaf ps) =>
        some (setW cfg k { w with phase := .leafEntry ps 0, large_value := none })
      | _ => none
  | .spawnOne k =>
    match cfg.walkers.get? k with
    | none => none
    | some w =>
      match w.phase with
      | .spawningChildren (c :: rest) =>
        some { cfg with
          walkers := (cfg.walkers.set k { w with phase := .spawningChildren rest })
            ++ [⟨cfg.nextId, .acquiringBlock c, none⟩],
          nextId := cfg.nextId + 1,
          counter := cfg.counter + 1 }
      | _ => none
  | .spawnFin k =>
    match cfg.walkers.get? k with
    | none => none
    | some w =>
      match w.phase with
      | .spawningChildren [] => some (deleteAt cfg k)
      | _ => none
  | .entryStep k =>
    match cfg.walkers.get? k with
    | none => none
    | some w =>
      match w.phase with
      | .leafEntry ps i =>
        match ps.get? i with
        | none => some (deleteAt cfg k)
        | some p =>
          match p.value with
          | .large segs =>
            some (setW cfg k { w with phase := .leafWaitLarge ps i,
                                      large_value := some segs })
          | .inline _ =>
            some (setW cfg k { w with phase := .leafWaitDone ps i,
                                      large_value := none })
      | _ => none
  | .largeAvail k =>
    match cfg.walkers.get? k with
    | none => none
    | some w =>
      match w.phase with
      | .leafWaitLarge ps i => some (setW cfg k { w with phase := .leafWaitDone ps i })
      | _ => none
  | .doneCont k =>
    match cfg.walkers.get? k with
    | none => none
    | some w =>
      match w.phase with
      | .leafWaitDone ps i =>
        some (setW cfg k { w with phase := .leafEntry ps (i + 1), large_value := none })
      | _ => none
  | .reportDone =>
    match cfg.sphase with
    | .committed => some { cfg with sphase := .reported }
    | _ => none

/-- Freshly started `slice_walker_t`: read transaction begun, superblock
acquisition issued, no branch walkers, shared counter zero. -/
def winit (root : Option Node) : WalkCfg :=
  { root := root, walkers := [], nextId := 0, counter := 0, sphase := .awaitSuper }

/-- Reachability of a shard-traversal state. -/
inductive WReach (root : Option Node) : WalkCfg → Prop where
  | init : WReach root (winit root)
  | step {c c' : WalkCfg} (l : WLabel) :
      WReach root c → wstep c l = some c' → WReach root c'

/-- The leaf-entry index a walker is working on, if it is in its leaf
iteration. -/
def entryIdx : Phase → Option Nat
  | .leafEntry _ i => some i
  | .leafWaitLarge _ i => some i
  | .leafWaitDone _ i => some i
  | _ => none

/-! ### List helpers for the walker pool -/

theorem get?_some_lt {α : Type _} {l : List α} {k : Nat} {a : α}
    (h : l.get? k = some a) : k < l.length := by
  by_contra hk
  rw [List.get?_eq_none.mpr (Nat.le_of_not_lt hk)] at h
  simp at h

theorem map_set_of_get? {α β : Type _} (f : α → β) :
    ∀ (l : List α) (k : Nat) (a b : α), l.get? k = some a → f b = f a →
      (l.set k b).map f = l.map f := by
  intro l
  induction l with
  | nil => intro k a b h _; simp [List.get?] at h
  | cons x xs ih =>
    intro k a b hget hf
    cases k with
    | zero =>
      simp only [List.get?] at hget
      injection hget with hxa
      subst hxa
      simp only [List.set, List.map_cons, hf]
    | succ j =>
      simp only [List.get?] at hget
      simp only [List.set, List.map_cons, ih j a b hget hf]

theorem map_eraseIdx_comm {α β : Type _} (f : α → β) :
    ∀ (l : List α) (k : Nat), (l.eraseIdx k).map f = (l.map f).eraseIdx k := by
  intro l
  induction l with
  | nil => intro k; simp [List.eraseIdx]
  | cons x xs ih =>
    intro k
    cases k with
    | zero => simp [List.eraseIdx]
    | succ j => simp [List.eraseIdx, ih j]

/-! ### Shard-traversal invariant -/

/-- Inductive invariant of a shard traversal:
`active_branch_walkers` equals the number of live walkers (so it is never
negative); no walker exists before the superblock callback or after
`done()`; walker identities are distinct and below the freshness bound;
and a walker about to examine a leaf entry holds no large value
(`have_copied_value` released it before advancing). -/
structure WInv (cfg : WalkCfg) : Prop where
  hcnt : cfg.counter = (cfg.walkers.length : Int)
  hawait : cfg.sphase = .awaitSuper → cfg.walkers = []
  hdone : cfg.sphase = .committed ∨ cfg.sphase = .reported → cfg.walkers = []
  hnodup : (cfg.walkers.map Walker.id).Nodup
  hbound : ∀ w ∈ cfg.walkers, w.id < cfg.nextId
  hlv : ∀ w ∈ cfg.walkers, ∀ ps i, w.phase = .leafEntry ps i → w.large_value = none

theorem winv_init (root : Option Node) : WInv (winit root) := by
  refine ⟨rfl, fun _ => rfl, fun _ => rfl, List.nodup_nil, ?_, ?_⟩
  · intro w hw; simp [winit] at hw
  · intro w hw; simp [winit] at hw

theorem winv_setW {cfg : WalkCfg} (hinv : WInv cfg) {k : Nat} {w x : Walker}
    (hget : cfg.walkers.get? k = some w) (hid : x.id = w.id)
    (hxlv : ∀ ps i, x.phase = .leafEntry ps i → x.large_value = none) :
    WInv (setW cfg k x) := by
  obtain ⟨hcnt, hawait, hdone, hnodup, hbound, hlv⟩ := hinv
  refine ⟨?_, ?_, ?_, ?_, ?_, ?_⟩
  · show cfg.counter = ((cfg.walkers.set k x).length : Int)
    rw [List.length_set]
    exact hcnt
  · intro h
    have h0 := hawait h
    have hk := get?_some_lt hget
    rw [h0] at hk
    simp at hk
  · intro h
    have h0 := hdone h
    have hk := get?_some_lt hget
    rw [h0] at hk
    simp at hk
  · show ((cfg.walkers.set k x).map Walker.id).Nodup
    rw [map_set_of_get? Walker.id cfg.walkers k w x hget hid]
    exact hnodup
  · intro w' hw'
    rcases List.mem_or_eq_of_mem_set hw' with hm | rfl
    · exact hbound w' hm
    · show w'.id < cfg.nextId
      rw [hid]
      exact hbound w (List.get?_mem hget)
  · intro w' hw'
    rcases List.mem_or_eq_of_mem_set hw' with hm | rfl
    · exact hlv w' hm
    · exact hxlv

theorem winv_deleteAt {cfg : WalkCfg} (hinv : WInv cfg) {k : Nat} {w : Walker}
    (hget : cfg.walkers.get? k = some w) : WInv (deleteAt cfg k) := by
  obtain ⟨hcnt, hawait, hdone, hnodup, hbound, hlv⟩ := hinv
  have hk := get?_some_lt hget
  have hlenE : (cfg.walkers.eraseIdx k).length = cfg.walkers.length - 1 := by
    rw [List.length_eraseIdx, if_pos hk]
  refine ⟨?_, ?_, ?_, ?_, ?_, ?_⟩
  · show cfg.counter - 1 = ((cfg.walkers.eraseIdx k).length : Int)
    rw [hlenE]
    omega
  · intro h
    have h' : (if cfg.counter - 1 = 0 then SlicePhase.committed else cfg.sphase)
        = .awaitSuper := h
    split at h'
    · simp at h'
    · have h0 := hawait h'
      rw [h0] at hk
      simp at hk
  · intro h
    show cfg.walkers.eraseIdx k = []
    have h' : (if cfg.counter - 1 = 0 then SlicePhase.committed else cfg.sphase)
          = .committed ∨
        (if cfg.counter - 1 = 0 then SlicePhase.committed else cfg.sphase) = .reported := h
    by_cases hc : cfg.counter - 1 = 0
    · have hl0 : (cfg.walkers.eraseIdx k).length = 0 := by
        rw [hlenE]
        omega
      exact List.length_eq_zero.mp hl0
    · rw [if_neg hc] at h'
      have h0 := hdone h'
      rw [h0] at hk
      simp at hk
  · show ((cfg.walkers.eraseIdx k).map Walker.id).Nodup
    rw [map_eraseIdx_comm]
    exact List.Nodup.sublist (List.eraseIdx_sublist _ k) hnodup
  · intro w' hw'
    exact hbound w' ((List.eraseIdx_sublist cfg.walkers k).subset hw')
  · intro w' hw'
    exact hlv w' ((List.eraseIdx_sublist cfg.walkers k).subset hw')

theorem winv_append_fresh {cfg : WalkCfg} (base : List Walker) (c : Node)
    (hbase : base.map Walker.id = cfg.walkers.map Walker.id)
    (hinv : WInv cfg) :
    ((base ++ [(⟨cfg.nextId, .acquiringBlock c, none⟩ : Walker)]).map Walker.id).Nodup := by
  rw [List.map_append, hbase]
  refine List.Nodup.append hinv.hnodup (by simp) ?_
  intro a ha hb
  simp only [List.map_cons, List.map_nil, List.mem_singleton] at hb
  subst hb
  rcases List.mem_map.mp ha with ⟨w, hw, hwid⟩
  have := hinv.hbound w hw
  omega

theorem walk_inv {root : Option Node} {cfg : WalkCfg} (hr : WReach root cfg) :
    WInv cfg := by
  induction hr with
  | init => exact winv_init root
  | step l hr hst ih =>
    rename_i c c'
    obtain ⟨hcnt, hawait, hdone, hnodup, hbound, hlv⟩ := ih
    cases l with
    | superAvail =>
      simp only [wstep] at hst
      split at hst
      next hsp =>
        have hw0 : c.walkers = [] := hawait hsp
        split at hst
        next r hroot =>
          injection hst with hst
          subst hst
          refine ⟨?_, ?_, ?_, ?_, ?_, ?_⟩
          · show c.counter + 1
                = ((c.walkers ++ [(⟨c.nextId, .acquiringBlock r, none⟩ : Walker)]).length : Int)
            rw [List.length_append]
            simp only [List.length_cons, List.length_nil]
            omega
          · intro h; simp at h
          · intro h; rcases h with h | h <;> simp at h
          · exact winv_append_fresh c.walkers r rfl ⟨hcnt, hawait, hdone, hnodup, hbound, hlv⟩
          · intro w' hw'
            rcases List.mem_append.mp hw' with hm | hm
            · have := hbound w' hm
              show w'.id < c.nextId + 1
              omega
            · simp only [List.mem_singleton] at hm
              subst hm
              show c.nextId < c.nextId + 1
              omega
          · intro w' hw'
            rcases List.mem_append.mp hw' with hm | hm
            · exact hlv w' hm
            · simp only [List.mem_singleton] at hm
              subst hm
              intro ps i hph
              simp [Phase.acquiringBlock.injEq] at hph
        next hroot =>
          injection hst with hst
          subst hst
          refine ⟨hcnt, ?_, ?_, hnodup, hbound, hlv⟩
          · intro h; simp at h
          · intro _; exact hw0
      · simp at hst
    | blockAvail k =>
      simp only [wstep] at hst
      split at hst
      · simp at hst
      next w hget =>
      split at hst
      next ps =>
        injection hst with hst
        subst hst
        refine winv_setW ⟨hcnt, hawait, hdone, hnodup, hbound, hlv⟩ hget rfl ?_
        intro ps' i' hph
        simp at hph
      next ps =>
        injection hst with hst
        subst hst
        refine winv_setW ⟨hcnt, hawait, hdone, hnodup, hbound, hlv⟩ hget rfl ?_
        intro ps' i' _
        rfl
      · simp at hst
    | spawnOne k =>
      simp only [wstep] at hst
      split at hst
      · simp at hst
      next w hget =>
      split at hst
      next ch rest hph =>
        injection hst with hst
        subst hst
        have hmapset : (c.walkers.set k { w with phase := .spawningChildren rest }).map Walker.id
            = c.walkers.map Walker.id :=
          map_set_of_get? Walker.id c.walkers k w _ hget rfl
        refine ⟨?_, ?_, ?_, ?_, ?_, ?_⟩
        · show c.counter + 1
              = (((c.walkers.set k { w with phase := .spawningChildren rest })
                  ++ [(⟨c.nextId, .acquiringBlock ch, none⟩ : Walker)]).length : Int)
          rw [List.length_append, List.length_set]
          simp only [List.length_cons, List.length_nil]
          omega
        · intro h
          have h0 := hawait h
          have hk := get?_some_lt hget
          rw [h0] at hk
          simp at hk
        · intro h
          have h0 := hdone h
          have hk := get?_some_lt hget
          rw [h0] at hk
          simp at hk
        · exact winv_append_fresh _ ch hmapset ⟨hcnt, hawait, hdone, hnodup, hbound, hlv⟩
        · intro w' hw'
          rcases List.mem_append.mp hw' with hm | hm
          · rcases List.mem_or_eq_of_mem_set hm with hmm | rfl
            · have := hbound w' hmm
              show w'.id < c.nextId + 1
              omega
            · have := hbound w (List.get?_mem hget)
              show w.id < c.nextId + 1
              omega
          · simp only [List.mem_singleton] at hm
            subst hm
            show c.nextId < c.nextId + 1
            omega
        · intro w' hw'
          rcases List.mem_append.mp hw' with hm | hm
          · rcases List.mem_or_eq_of_mem_set hm with hmm | rfl
            · exact hlv w' hmm
            · intro ps' i' hph
              simp at hph
          · simp only [List.mem_singleton] at hm
            subst hm
            intro ps' i' hph
            simp at hph
      · simp at hst
    | spawnFin k =>
      simp only [wstep] at hst
      split at hst
      · simp at hst
      next w hget =>
      split at hst
      next =>
        injection hst with hst
        subst hst
        exact winv_deleteAt ⟨hcnt, hawait, hdone, hnodup, hbound, hlv⟩ hget
      · simp at hst
    | entryStep k =>
      simp only [wstep] at hst
      split at hst
      · simp at hst
      next w hget =>
      split at hst
      next ps i =>
        split at hst
        next hpsi =>
          injection hst with hst
          subst hst
          exact winv_deleteAt ⟨hcnt, hawait, hdone, hnodup, hbound, hlv⟩ hget
        next p hpsi =>
          split at hst
          next segs =>
            injection hst with hst
            subst hst
            refine winv_setW ⟨hcnt, hawait, hdone, hnodup, hbound, hlv⟩ hget rfl ?_
            intro ps' i' hph
            simp at hph
          next b =>
            injection hst with hst
            subst hst
            refine winv_setW ⟨hcnt, hawait, hdone, hnodup, hbound, hlv⟩ hget rfl ?_
            intro ps' i' hph
            simp at hph
      · simp at hst
    | largeAvail k =>
      simp only [wstep] at hst
      split at hst
      · simp at hst
      next w hget =>
      split at hst
      next ps i =>
        injection hst with hst
        subst hst
        refine winv_setW ⟨hcnt, hawait, hdone, hnodup, hbound, hlv⟩ hget rfl ?_
        intro ps' i' hph
        simp at hph
      · simp at hst
    | doneCont k =>
      simp only [wstep] at hst
      split at hst
      · simp at hst
      next w hget =>
      split at hst
      next ps i =>
        injection hst with hst
        subst hst
        refine winv_setW ⟨hcnt, hawait, hdone, hnodup, hbound, hlv⟩ hget rfl ?_
        intro ps' i' _
        rfl
      · simp at hst
    | reportDone =>
      simp only [wstep] at hst
      split at hst
      next hsp =>
        injection hst with hst
        subst hst
        refine ⟨hcnt, ?_, ?_, hnodup, hbound, hlv⟩
        · intro h; simp at h
        · intro _
          exact hdone (Or.inl hsp)
      · simp at hst

/-- **C3.** For every traversal of a shard, the shared counter
`active_branch_walkers` (incremented exactly once in each
`branch_walker_t` constructor, decremented exactly once in each
destructor, as the step relation `wstep` does) equals the number of live
walkers at all times, never becomes negative, and has returned to exactly
zero by the time the shard reports completion (the `committed` and
`reported` phases). -/
theorem claim_c3_counter_balance (root : Option Node) (cfg : WalkCfg)
    (hr : WReach root cfg) :
    cfg.counter = (cfg.walkers.length : Int)
    ∧ 0 ≤ cfg.counter
    ∧ ((cfg.sphase = .committed ∨ cfg.sphase = .reported) →
        cfg.counter = 0 ∧ cfg.walkers = []) := by
  have hinv := walk_inv hr
  refine ⟨hinv.hcnt, ?_, ?_⟩
  · rw [hinv.hcnt]
    exact Int.natCast_nonneg _
  · intro h
    have h0 := hinv.hdone h
    constructor
    · rw [hinv.hcnt, h0]
      rfl
    · exact h0

/-- The example leaf of the spec's scenario, used as a one-node tree. -/
def exampleLeaf : Node :=
  .leaf [⟨"a", .inline [65], 0, 0, none⟩, ⟨"b", .large [[1], [2, 3], [4]], 5, 6, some 7⟩]

/-- Traversal state right after the superblock callback spawned the root
walker for `exampleLeaf`. -/
def walk1 : WalkCfg :=
  { root := some exampleLeaf,
    walkers := [⟨0, .acquiringBlock exampleLeaf, none⟩],
    nextId := 1, counter := 1, sphase := .running }

/-- Witness for C3 one step into the traversal of `exampleLeaf`: one live
walker, counter one. -/
theorem claim_c3_counter_balance_witness :
    walk1.counter = (walk1.walkers.length : Int)
    ∧ 0 ≤ walk1.counter
    ∧ ((walk1.sphase = .committed ∨ walk1.sphase = .reported) →
        walk1.counter = 0 ∧ walk1.walkers = []) :=
  claim_c3_counter_balance (some exampleLeaf) walk1
    (WReach.step .superAvail WReach.init rfl)

/-! ### C4: back-pressure -/

theorem same_walker_of_set {cfg : WalkCfg} (hinv : WInv cfg) {k : Nat} {y x : Walker}
    (hget : cfg.walkers.get? k = some y)
    {w w' : Walker} (hw : w ∈ cfg.walkers) (hw' : w' ∈ cfg.walkers.set k x)
    (hid : w'.id = w.id) (hidxy : x.id = y.id) : (w' = x ∧ w = y) ∨ w' = w := by
  rcases List.mem_or_eq_of_mem_set hw' with hm | rfl
  · exact Or.inr (List.inj_on_of_nodup_map hinv.hnodup hm hw hid)
  · left
    refine ⟨rfl, ?_⟩
    have hy : y ∈ cfg.walkers := List.get?_mem hget
    exact List.inj_on_of_nodup_map hinv.hnodup hw hy (hid.symm.trans hidxy)

theorem c4_trivial {cfg : WalkCfg} {l : WLabel} {w : Walker} :
    (w.large_value ≠ w.large_value →
      ∀ segs, w.large_value = some segs → w.large_value = none)
    ∧ (∀ i j, entryIdx w.phase = some i → entryIdx w.phase = some j → j ≠ i →
        j = i + 1 ∧ ∃ k ps, l = .doneCont k ∧ cfg.walkers.get? k = some w
          ∧ w.phase = .leafWaitDone ps i) := by
  refine ⟨fun hne => absurd rfl hne, ?_⟩
  intro i j hi hj hne
  rw [hi] at hj
  injection hj with hj
  exact absurd hj.symm hne

/-- **C4.** During leaf iteration, a walker never acquires a second large
value while the previous entry's large value remains unreleased: whenever
a step pins a large value into a walker (`large_value` becomes `some`),
the walker held none before (the release in `have_copied_value` already
happened).  And a walker's leaf-entry index advances only when the sink
invokes the delivery's done-continuation for the current entry: the only
step that changes the index is `doneCont` on a walker that was in
`leafWaitDone` (delivered, done-continuation pending), and it advances by
exactly one. -/
theorem claim_c4_back_pressure (root : Option Node) (cfg cfg' : WalkCfg) (l : WLabel)
    (hr : WReach root cfg) (hst : wstep cfg l = some cfg')
    (w w' : Walker) (hw : w ∈ cfg.walkers) (hw' : w' ∈ cfg'.walkers)
    (hid : w'.id = w.id) :
    (w'.large_value ≠ w.large_value →
      ∀ segs, w'.large_value = some segs → w.large_value = none)
    ∧ (∀ i j, entryIdx w.phase = some i → entryIdx w'.phase = some j → j ≠ i →
        j = i + 1 ∧ ∃ k ps, l = .doneCont k ∧ cfg.walkers.get? k = some w
          ∧ w.phase = .leafWaitDone ps i) := by
  have hinv := walk_inv hr
  cases l with
  | superAvail =>
    simp only [wstep] at hst
    split at hst
    next hsp =>
      have h0 := hinv.hawait hsp
      rw [h0] at hw
      simp at hw
    · simp at hst
  | reportDone =>
    simp only [wstep] at hst
    split at hst
    next hsp =>
      injection hst with hst
      subst hst
      have hww : w' = w := List.inj_on_of_nodup_map hinv.hnodup hw' hw hid
      subst hww
      exact c4_trivial
    · simp at hst
  | blockAvail k =>
    simp only [wstep] at hst
    split at hst
    · simp at hst
    next w0 hget =>
    split at hst
    next ps hph =>
      injection hst with hst
      subst hst
      have hw'' : w' ∈ cfg.walkers.set k
          { w0 with phase := .spawningChildren (childrenOf ps) } := hw'
      rcases same_walker_of_set hinv hget hw hw'' hid rfl with ⟨he1, he2⟩ | he
      · subst he1; subst he2
        refine ⟨fun hne => absurd rfl hne, ?_⟩
        intro i j hi _ _
        rw [hph] at hi
        simp [entryIdx] at hi
      · subst he
        exact c4_trivial
    next ps hph =>
      injection hst with hst
      subst hst
      have hw'' : w' ∈ cfg.walkers.set k
          { w0 with phase := .leafEntry ps 0, large_value := none } := hw'
      rcases same_walker_of_set hinv hget hw hw'' hid rfl with ⟨he1, he2⟩ | he
      · subst he1; subst he2
        refine ⟨?_, ?_⟩
        · intro _ segs hsegs
          simp at hsegs
        · intro i j hi _ _
          rw [hph] at hi
          simp [entryIdx] at hi
      · subst he
        exact c4_trivial
    · simp at hst
  | spawnOne k =>
    simp only [wstep] at hst
    split at hst
    · simp at hst
    next w0 hget =>
    split at hst
    next ch rest hph =>
      injection hst with hst
      subst hst
      have hw'' : w' ∈ (cfg.walkers.set k { w0 with phase := .spawningChildren rest })
          ++ [(⟨cfg.nextId, .acquiringBlock ch, none⟩ : Walker)] := hw'
      rcases List.mem_append.mp hw'' with hm | hm
      · rcases same_walker_of_set hinv hget hw hm hid rfl with ⟨he1, he2⟩ | he
        · subst he1; subst he2
          refine ⟨fun hne => absurd rfl hne, ?_⟩
          intro i j hi _ _
          rw [hph] at hi
          simp [entryIdx] at hi
        · subst he
          exact c4_trivial
      · simp only [List.mem_singleton] at hm
        subst hm
        have hb := hinv.hbound w hw
        have : cfg.nextId = w.id := hid
        omega
    · simp at hst
  | spawnFin k =>
    simp only [wstep] at hst
    split at hst
    · simp at hst
    next w0 hget =>
    split at hst
    next hph =>
      injection hst with hst
      subst hst
      have hw'' : w' ∈ cfg.walkers.eraseIdx k := hw'
      have hm : w' ∈ cfg.walkers := (List.eraseIdx_sublist cfg.walkers k).subset hw''
      have hww : w' = w := List.inj_on_of_nodup_map hinv.hnodup hm hw hid
      subst hww
      exact c4_trivial
    · simp at hst
  | entryStep k =>
    simp only [wstep] at hst
    split at hst
    · simp at hst
    next w0 hget =>
    split at hst
    next ps i0 hph =>
      split at hst
      next hpsi =>
        injection hst with hst
        subst hst
        have hw'' : w' ∈ cfg.walkers.eraseIdx k := hw'
        have hm : w' ∈ cfg.walkers := (List.eraseIdx_sublist cfg.walkers k).subset hw''
        have hww : w' = w := List.inj_on_of_nodup_map hinv.hnodup hm hw hid
        subst hww
        exact c4_trivial
      next p hpsi =>
        split at hst
        next segs hval =>
          injection hst with hst
          subst hst
          have hw'' : w' ∈ cfg.walkers.set k
              { w0 with phase := .leafWaitLarge ps i0, large_value := some segs } := hw'
          rcases same_walker_of_set hinv hget hw hw'' hid rfl with ⟨he1, he2⟩ | he
          · subst he1; subst he2
            refine ⟨?_, ?_⟩
            · intro _ segs' _
              exact hinv.hlv w (List.get?_mem hget) ps i0 hph
            · intro i1 j hi hj hne
              rw [hph] at hi
              simp only [entryIdx] at hi hj
              injection hi with hi
              injection hj with hj
              exact absurd (hj.symm.trans hi) hne
          · subst he
            exact c4_trivial
        next b hval =>
          injection hst with hst
          subst hst
          have hw'' : w' ∈ cfg.walkers.set k
              { w0 with phase := .leafWaitDone ps i0, large_value := none } := hw'
          rcases same_walker_of_set hinv hget hw hw'' hid rfl with ⟨he1, he2⟩ | he
          · subst he1; subst he2
            refine ⟨?_, ?_⟩
            · intro _ segs hsegs
              simp at hsegs
            · intro i1 j hi hj hne
              rw [hph] at hi
              simp only [entryIdx] at hi hj
              injection hi with hi
              injection hj with hj
              exact absurd (hj.symm.trans hi) hne
          · subst he
            exact c4_trivial
    · simp at hst
  | largeAvail k =>
    simp only [wstep] at hst
    split at hst
    · simp at hst
    next w0 hget =>
    split at hst
    next ps i0 hph =>
      injection hst with hst
      subst hst
      have hw'' : w' ∈ cfg.walkers.set k { w0 with phase := .leafWaitDone ps i0 } := hw'
      rcases same_walker_of_set hinv hget hw hw'' hid rfl with ⟨he1, he2⟩ | he
      · subst he1; subst he2
        refine ⟨fun hne => absurd rfl hne, ?_⟩
        intro i1 j hi hj hne
        rw [hph] at hi
        simp only [entryIdx] at hi hj
        injection hi with hi
        injection hj with hj
        exact absurd (hj.symm.trans hi) hne
      · subst he
        exact c4_trivial
    · simp at hst
  | doneCont k =>
    simp only [wstep] at hst
    split at hst
    · simp at hst
    next w0 hget =>
    split at hst
    next ps i0 hph =>
      injection hst with hst
      subst hst
      have hw'' : w' ∈ cfg.walkers.set k
          { w0 with phase := .leafEntry ps (i0 + 1), large_value := none } := hw'
      rcases same_walker_of_set hinv hget hw hw'' hid rfl with ⟨he1, he2⟩ | he
      · subst he1; subst he2
        refine ⟨?_, ?_⟩
        · intro _ segs hsegs
          simp at hsegs
        · intro i1 j hi hj _
          rw [hph] at hi
          simp only [entryIdx] at hi hj
          injection hi with hi
          injection hj with hj
          subst hi
          subst hj
          exact ⟨rfl, k, ps, rfl, hget, hph⟩
      · subst he
        exact c4_trivial
    · simp at hst

/-- Leaf pairs of a two-entry inline leaf, used by the C4 witness. -/
def leafPairs4 : List LeafPair :=
  [⟨"a", .inline [1], 0, 0, none⟩, ⟨"b", .inline [2], 0, 0, none⟩]

/-- State with one walker that has delivered entry 0 of `leafPairs4` and
awaits the done-continuation. -/
def walk4pre : WalkCfg :=
  { root := some (.leaf leafPairs4),
    walkers := [⟨0, .leafWaitDone leafPairs4 0, none⟩],
    nextId := 1, counter := 1, sphase := .running }

/-- State after the sink's done-continuation advanced that walker to
entry 1. -/
def walk4post : WalkCfg :=
  { root := some (.leaf leafPairs4),
    walkers := [⟨0, .leafEntry leafPairs4 1, none⟩],
    nextId := 1, counter := 1, sphase := .running }

/-- Witness for C4: across the concrete `doneCont` step from `walk4pre`
to `walk4post`, the walker's entry index advances from 0 to 1 precisely
because the done-continuation for entry 0 fired. -/
theorem claim_c4_back_pressure_witness :
    1 = 0 + 1 ∧ ∃ k ps, WLabel.doneCont 0 = WLabel.doneCont k
      ∧ walk4pre.walkers.get? k = some ⟨0, .leafWaitDone leafPairs4 0, none⟩
      ∧ Phase.leafWaitDone leafPairs4 0 = .leafWaitDone ps 0 :=
  (claim_c4_back_pressure (some (.leaf leafPairs4)) walk4pre walk4post (.doneCont 0)
      (WReach.step (.entryStep 0)
        (WReach.step (.blockAvail 0)
          (WReach.step .superAvail WReach.init rfl) rfl) rfl) rfl
      ⟨0, .leafWaitDone leafPairs4 0, none⟩ ⟨0, .leafEntry leafPairs4 1, none⟩
      (by simp [walk4pre]) (by simp [walk4post]) rfl).2 0 1 rfl rfl (by decide)

/-! ### C7: internal-node fan-out -/

/-- A two-child internal node used to exhibit the fan-out behaviour. -/
def exampleInternal : Node :=
  .internal (.icons "a" (.leaf []) (.icons "b" (.leaf []) .inil))

/-- State of the `exampleInternal` traversal after the root walker spawned
both children and destroyed itself: the children are still in their
initial phase (no work done) while the parent is already gone. -/
def walk7 : WalkCfg :=
  { root := some exampleInternal,
    walkers := [⟨1, .acquiringBlock (.leaf []), none⟩, ⟨2, .acquiringBlock (.leaf []), none⟩],
    nextId := 3, counter := 2, sphase := .running }

/-- Intermediate state used by the C7 witness: the root walker has spawned
its first child and still has one child to spawn. -/
def walk7mid : WalkCfg :=
  { root := some exampleInternal,
    walkers := [⟨0, .spawningChildren [.leaf []], none⟩, ⟨1, .acquiringBlock (.leaf []), none⟩],
    nextId := 2, counter := 2, sphase := .running }

/-- **C7.** When a Subtree Walker's node is internal, `on_block_available`
enters the spawn loop over the (separator, child) pairs in pair order
(`childrenOf ps`); each loop iteration constructs one new walker for the
first remaining child — incrementing the shared counter in the
constructor, before that child has done any work (it starts in
`acquiringBlock`) —; the walker cannot release itself while children
remain to spawn (`spawnFin` is disabled), and only after spawning all
children does `delete this` run, decrementing the counter by one.  The
parent does not wait for any child to finish: the state `walk7`, in which
the parent is destroyed while both children are alive and untouched, is
reachable. -/
theorem claim_c7_internal_fanout (cfg : WalkCfg) (k : Nat) (w : Walker) :
    (∀ ps, cfg.walkers.get? k = some w → w.phase = .acquiringBlock (.internal ps) →
        wstep cfg (.blockAvail k)
          = some (setW cfg k { w with phase := .spawningChildren (childrenOf ps) }))
    ∧ (∀ c rest, cfg.walkers.get? k = some w → w.phase = .spawningChildren (c :: rest) →
        wstep cfg (.spawnOne k) = some { cfg with
          walkers := (cfg.walkers.set k { w with phase := .spawningChildren rest })
            ++ [(⟨cfg.nextId, .acquiringBlock c, none⟩ : Walker)],
          nextId := cfg.nextId + 1,
          counter := cfg.counter + 1 }
        ∧ wstep cfg (.spawnFin k) = none)
    ∧ (cfg.walkers.get? k = some w → w.phase = .spawningChildren [] →
        wstep cfg (.spawnFin k) = some (deleteAt cfg k)
        ∧ (deleteAt cfg k).counter = cfg.counter - 1)
    ∧ (WReach (some exampleInternal) walk7
        ∧ walk7.walkers = [⟨1, .acquiringBlock (.leaf []), none⟩,
            ⟨2, .acquiringBlock (.leaf []), none⟩]
        ∧ walk7.counter = 2) := by
  refine ⟨?_, ?_, ?_, ?_, rfl, rfl⟩
  · intro ps hget hph
    obtain ⟨wid, wph, wlv⟩ := w
    have hph' : wph = Phase.acquiringBlock (.internal ps) := hph
    subst hph'
    simp only [wstep]
    rw [hget]
  · intro c rest hget hph
    obtain ⟨wid, wph, wlv⟩ := w
    have hph' : wph = Phase.spawningChildren (c :: rest) := hph
    subst hph'
    constructor
    · simp only [wstep]
      rw [hget]
    · simp only [wstep]
      rw [hget]
  · intro hget hph
    obtain ⟨wid, wph, wlv⟩ := w
    have hph' : wph = Phase.spawningChildren [] := hph
    subst hph'
    constructor
    · simp only [wstep]
      rw [hget]
    · rfl
  · exact WReach.step (.spawnFin 0)
      (WReach.step (.spawnOne 0)
        (WReach.step (.spawnOne 0)
          (WReach.step (.blockAvail 0)
            (WReach.step .superAvail WReach.init rfl) rfl) rfl) rfl) rfl

/-- Witness for C7 at `walk7mid`: spawning the last remaining child
appends a fresh walker in its initial phase and increments the counter,
while `spawnFin` is still disabled. -/
theorem claim_c7_internal_fanout_witness :
    wstep walk7mid (.spawnOne 0) = some { walk7mid with
        walkers := (walk7mid.walkers.set 0
            { (⟨0, .spawningChildren [.leaf []], none⟩ : Walker) with
              phase := .spawningChildren [] })
          ++ [(⟨walk7mid.nextId, .acquiringBlock (.leaf []), none⟩ : Walker)],
        nextId := walk7mid.nextId + 1,
        counter := walk7mid.counter + 1 }
    ∧ wstep walk7mid (.spawnFin 0) = none :=
  (claim_c7_internal_fanout walk7mid 0 ⟨0, .spawningChildren [.leaf []], none⟩).2.1
    (.leaf []) [] rfl rfl

/-! ### C8: empty tree -/

/-- Shard state after `done()` on an empty tree: snapshot transaction
committed, `report` scheduled. -/
def walkNoneC : WalkCfg :=
  { root := none, walkers := [], nextId := 0, counter := 0, sphase := .committed }

/-- Shard state after `report()` told the coordinator the scan finished. -/
def walkNoneR : WalkCfg :=
  { root := none, walkers := [], nextId := 0, counter := 0, sphase := .reported }

theorem walk_none_states {cfg : WalkCfg} (hr : WReach none cfg) :
    cfg = winit none ∨ cfg = walkNoneC ∨ cfg = walkNoneR := by
  induction hr with
  | init => exact Or.inl rfl
  | step l hr hst ih =>
    rcases ih with rfl | rfl | rfl
    · cases l with
      | superAvail =>
        simp only [wstep, winit] at hst
        injection hst with hst
        exact Or.inr (Or.inl hst.symm)
      | blockAvail k => simp [wstep, winit] at hst
      | spawnOne k => simp [wstep, winit] at hst
      | spawnFin k => simp [wstep, winit] at hst
      | entryStep k => simp [wstep, winit] at hst
      | largeAvail k => simp [wstep, winit] at hst
      | doneCont k => simp [wstep, winit] at hst
      | reportDone => simp [wstep, winit] at hst
    · cases l with
      | reportDone =>
        simp only [wstep, walkNoneC] at hst
        injection hst with hst
        exact Or.inr (Or.inr hst.symm)
      | superAvail => simp [wstep, walkNoneC] at hst
      | blockAvail k => simp [wstep, walkNoneC] at hst
      | spawnOne k => simp [wstep, walkNoneC] at hst
      | spawnFin k => simp [wstep, walkNoneC] at hst
      | entryStep k => simp [wstep, walkNoneC] at hst
      | largeAvail k => simp [wstep, walkNoneC] at hst
      | doneCont k => simp [wstep, walkNoneC] at hst
    · cases l with
      | superAvail => simp [wstep, walkNoneR] at hst
      | blockAvail k => simp [wstep, walkNoneR] at hst
      | spawnOne k => simp [wstep, walkNoneR] at hst
      | spawnFin k => simp [wstep, walkNoneR] at hst
      | entryStep k => simp [wstep, walkNoneR] at hst
      | largeAvail k => simp [wstep, walkNoneR] at hst
      | doneCont k => simp [wstep, walkNoneR] at hst
      | reportDone => simp [wstep, walkNoneR] at hst

/-- **C8.** If a shard's tree has no root (empty tree:
`superblock->root_block == NULL_BLOCK_ID`), the slice walker spawns no
branch walker (no reachable state ever holds one and the counter stays
zero) and proceeds directly to completion: the superblock callback is the
only possible first step and it commits the snapshot transaction
(`done()`), after which the only possible step reports completion to the
coordinator — exactly once, since the reported state is final. -/
theorem claim_c8_empty_tree (cfg : WalkCfg) (hr : WReach none cfg) :
    (cfg.walkers = [] ∧ cfg.counter = 0)
    ∧ wstep (winit none) .superAvail = some walkNoneC
    ∧ (∀ l c', wstep (winit none) l = some c' → l = .superAvail ∧ c' = walkNoneC)
    ∧ wstep walkNoneC .reportDone = some walkNoneR
    ∧ (∀ l c', wstep walkNoneC l = some c' → l = .reportDone ∧ c' = walkNoneR)
    ∧ (∀ l, wstep walkNoneR l = none) := by
  refine ⟨?_, rfl, ?_, rfl, ?_, ?_⟩
  · rcases walk_none_states hr with rfl | rfl | rfl
    · exact ⟨rfl, rfl⟩
    · exact ⟨rfl, rfl⟩
    · exact ⟨rfl, rfl⟩
  · intro l c' h
    cases l with
    | superAvail =>
      simp only [wstep, winit] at h
      injection h with h
      exact ⟨rfl, h.symm⟩
    | blockAvail k => simp [wstep, winit] at h
    | spawnOne k => simp [wstep, winit] at h
    | spawnFin k => simp [wstep, winit] at h
    | entryStep k => simp [wstep, winit] at h
    | largeAvail k => simp [wstep, winit] at h
    | doneCont k => simp [wstep, winit] at h
    | reportDone => simp [wstep, winit] at h
  · intro l c' h
    cases l with
    | reportDone =>
      simp only [wstep, walkNoneC] at h
      injection h with h
      exact ⟨rfl, h.symm⟩
    | superAvail => simp [wstep, walkNoneC] at h
    | blockAvail k => simp [wstep, walkNoneC] at h
    | spawnOne k => simp [wstep, walkNoneC] at h
    | spawnFin k => simp [wstep, walkNoneC] at h
    | entryStep k => simp [wstep, walkNoneC] at h
    | largeAvail k => simp [wstep, walkNoneC] at h
    | doneCont k => simp [wstep, walkNoneC] at h
  · intro l
    cases l with
    | superAvail => rfl
    | blockAvail k => cases k <;> rfl
    | spawnOne k => cases k <;> rfl
    | spawnFin k => cases k <;> rfl
    | entryStep k => cases k <;> rfl
    | largeAvail k => cases k <;> rfl
    | doneCont k => cases k <;> rfl
    | reportDone => rfl

/-- Witness for C8 at the committed state of an empty shard. -/
theorem claim_c8_empty_tree_witness :
    (walkNoneC.walkers = [] ∧ walkNoneC.counter = 0)
    ∧ wstep (winit none) .superAvail = some walkNoneC
    ∧ (∀ l c', wstep (winit none) l = some c' → l = .superAvail ∧ c' = walkNoneC)
    ∧ wstep walkNoneC .reportDone = some walkNoneR
    ∧ (∀ l c', wstep walkNoneC l = some c' → l = .reportDone ∧ c' = walkNoneR)
    ∧ (∀ l, wstep walkNoneR l = none) :=
  claim_c8_empty_tree walkNoneC (WReach.step .superAvail WReach.init rfl)

end Replicate
